import Mathlib

/-!
# Verification of the pymrio accounting/calculation engine specification

The repository ships only documentation for its calculation core (the
mathematical background document and the API reference); the Python
implementation files (`iomath`, `mriosystem`) are not part of the source
tree given here.  Following the development rules, the calculation core is
modelled from the specification (and from the published equations of the
mathematical-background document, which the spec reproduces), using exact
rational arithmetic in place of floating point.  Matrices are Mathlib
matrices over ℚ indexed by finite types; the region×sector axis is a
product type, mirroring the two-level (region, sector) index of the
labelled tables.
-/

open Matrix

section CoreMath

variable {n m c : Type*} [Fintype n] [Fintype m] [Fintype c]

/-- Modelled from the spec: `calc_x` (implementation absent from `src/`; the
mathematical-background document states `x = Ze + Ye`).  Total industry
output per region×sector row: row sums of the transaction table `Z` plus
row sums of the final-demand table `Y`. -/
def calc_x (Z : Matrix n n ℚ) (Y : Matrix n c ℚ) : n → ℚ :=
  fun i => (∑ j, Z i j) + (∑ j, Y i j)

/-- The summation vector `e`: a column vector of ones. -/
def sumVec : n → ℚ := fun _ => 1

/-- Modelled from the spec: the reciprocal of the output vector with the
documented zero-output guard — `1/x` with entries where `x_i = 0` set to
`0` instead of infinity. -/
def recipGuard (x : n → ℚ) : n → ℚ :=
  fun i => if x i = 0 then 0 else (x i)⁻¹

/-- Modelled from the spec: `calc_A` (implementation absent from `src/`;
documented as `A = Z x̂⁻¹` with zero-output columns set to zero).  The
direct-requirement coefficient matrix. -/
def calc_A (Z : Matrix n n ℚ) (x : n → ℚ) : Matrix n n ℚ :=
  Matrix.of fun i j => Z i j * recipGuard x j

/-- Modelled from the spec: `calc_S` (implementation absent from `src/`;
documented as `S = F x̂⁻¹` with the same zero-output guard as `calc_A`).
The stressor-coefficient matrix of an extension. -/
def calc_S (F : Matrix m n ℚ) (x : n → ℚ) : Matrix m n ℚ :=
  Matrix.of fun h j => F h j * recipGuard x j

end CoreMath

/-- C1: the computed industry output equals the row sums of `Z` plus the
row sums of `Y`, i.e. `x = Z·e + Y·e` with `e` the summation vector. -/
theorem calc_x_eq_rowsums {n c : Type*} [Fintype n] [Fintype c]
    (Z : Matrix n n ℚ) (Y : Matrix n c ℚ) :
    calc_x Z Y = Z.mulVec sumVec + Y.mulVec sumVec := by
  funext i
  simp [calc_x, sumVec, Matrix.mulVec, Matrix.dotProduct]

/-- C2: the coefficient matrix is `Z · diag(x)⁻¹` under the documented
zero-guard convention: `A` equals `Z` times the diagonal matrix of guarded
reciprocals of `x`; every column whose output is zero is entirely zero
(the normalization is total — no undefined entries); and wherever
`x j ≠ 0` the normalization inverts exactly (`A i j * x j = Z i j`). -/
theorem calc_A_spec {n : Type*} [Fintype n] [DecidableEq n]
    (Z : Matrix n n ℚ) (x : n → ℚ) :
    calc_A Z x = Z * Matrix.diagonal (recipGuard x) ∧
    (∀ j, x j = 0 → ∀ i, calc_A Z x i j = 0) ∧
    (∀ i j, x j ≠ 0 → calc_A Z x i j * x j = Z i j) := by
  refine ⟨?_, ?_, ?_⟩
  · funext i j
    simp [calc_A, Matrix.mul_apply, Matrix.diagonal, recipGuard]
  · intro j hj i
    simp [calc_A, recipGuard, hj]
  · intro i j hj
    simp [calc_A, recipGuard, hj]

/-- Witness for C2 at a concrete system: `Z = [[2,3],[4,5]]`,
`x = [1,0]`: the zero-output column of `A` is zero and the nonzero
column inverts exactly. -/
theorem calc_A_spec_witness :
    ((1 : ℚ) ≠ 0 ∧ ((0 : ℚ) = 0)) ∧
    calc_A !![(2 : ℚ), 3; 4, 5] ![1, 0] 0 1 = 0 ∧
    calc_A !![(2 : ℚ), 3; 4, 5] ![1, 0] 0 0 * (1 : ℚ) = 2 := by
  refine ⟨⟨one_ne_zero, rfl⟩, ?_, ?_⟩
  · exact (calc_A_spec !![(2 : ℚ), 3; 4, 5] ![1, 0]).2.1 1 rfl 0
  · exact (calc_A_spec !![(2 : ℚ), 3; 4, 5] ![1, 0]).2.2 0 0 one_ne_zero

/-- Explicit matrix inverse over ℚ: adjugate scaled by the reciprocal of
the determinant.  Agrees with the true inverse whenever the determinant is
nonzero; used to keep the model executable. -/
def matInv {n : Type*} [Fintype n] [DecidableEq n] (M : Matrix n n ℚ) :
    Matrix n n ℚ :=
  (M.det)⁻¹ • M.adjugate

/-- Modelled from the spec: `calc_L` (implementation absent from `src/`;
documented as `L = (I - A)⁻¹`, failing with a singular-matrix condition
identifying the Leontief table when `I - A` is not invertible; the failure
aborts the calculation step, so no result table is produced). -/
def calc_L {n : Type*} [Fintype n] [DecidableEq n] (A : Matrix n n ℚ) :
    Except String (Matrix n n ℚ) :=
  if (1 - A).det = 0 then
    Except.error "Singular matrix: could not invert (I - A) for table L"
  else
    Except.ok (matInv (1 - A))

/-- Left and right inverse of `matInv` at a nonsingular matrix. -/
theorem matInv_mul_cancel {n : Type*} [Fintype n] [DecidableEq n]
    (M : Matrix n n ℚ) (h : M.det ≠ 0) :
    M * matInv M = 1 ∧ matInv M * M = 1 := by
  constructor
  · rw [matInv, Matrix.mul_smul, Matrix.mul_adjugate, smul_smul,
      inv_mul_cancel₀ h, one_smul]
  · rw [matInv, Matrix.smul_mul, Matrix.adjugate_mul, smul_smul,
      inv_mul_cancel₀ h, one_smul]

/-- C3: when `I - A` is invertible (nonzero determinant) the Leontief
computation returns `L = (I - A)⁻¹` — a genuine two-sided inverse — and
when it is not, it returns the singular-matrix error naming the table `L`
and produces no result table (the pure `Except` model: an aborted step
yields only the error, so the caller's pre-call state is untouched). -/
theorem calc_L_spec {n : Type*} [Fintype n] [DecidableEq n]
    (A : Matrix n n ℚ) :
    ((1 - A).det ≠ 0 →
      ∃ L, calc_L A = Except.ok L ∧ (1 - A) * L = 1 ∧ L * (1 - A) = 1) ∧
    ((1 - A).det = 0 →
      calc_L A =
        Except.error "Singular matrix: could not invert (I - A) for table L") := by
  constructor
  · intro h
    refine ⟨matInv (1 - A), ?_, matInv_mul_cancel (1 - A) h⟩
    unfold calc_L
    rw [if_neg h]
  · intro h
    unfold calc_L
    rw [if_pos h]

/-- Witness for C3: a 1×1 system with `A = [[0]]` is invertible and yields
an honest inverse; `A = [[1]]` makes `I - A` singular and yields the
error. -/
theorem calc_L_spec_witness :
    ((1 - !![(0 : ℚ)]).det ≠ 0 ∧
      ∃ L, calc_L !![(0 : ℚ)] = Except.ok L ∧
        (1 - !![(0 : ℚ)]) * L = 1 ∧ L * (1 - !![(0 : ℚ)]) = 1) ∧
    ((1 - !![(1 : ℚ)]).det = 0 ∧
      calc_L !![(1 : ℚ)] =
        Except.error "Singular matrix: could not invert (I - A) for table L") := by
  have h0 : (1 - !![(0 : ℚ)]).det ≠ 0 := by
    norm_num [Matrix.det_fin_one]
  have h1 : (1 - !![(1 : ℚ)]).det = 0 := by
    norm_num [Matrix.det_fin_one]
  exact ⟨⟨h0, (calc_L_spec !![(0 : ℚ)]).1 h0⟩, ⟨h1, (calc_L_spec !![(1 : ℚ)]).2 h1⟩⟩

section Accounts

variable {R Sec C H : Type*} [Fintype R] [Fintype Sec] [Fintype C] [Fintype H]
variable [DecidableEq R] [DecidableEq Sec]

/-- Modelled from the spec: `Y_t`, the final-demand table with each
region's own domestic-satisfying block set to zero (off-diagonal final
demand only). -/
def Y_t (Y : Matrix (R × Sec) (R × C) ℚ) : Matrix (R × Sec) (R × C) ℚ :=
  Matrix.of fun p q => if p.1 = q.1 then 0 else Y p q

/-- Modelled from the spec: the detailed import-embodied account
`D_imp = S · L · Y_t` of `calc_accounts` (implementation absent from
`src/`). -/
def D_imp (S : Matrix H (R × Sec) ℚ) (L : Matrix (R × Sec) (R × Sec) ℚ)
    (Y : Matrix (R × Sec) (R × C) ℚ) : Matrix H (R × C) ℚ :=
  S * L * Y_t Y

/-- Modelled from the spec: the detailed export-embodied account
`D_exp = S · diag(L · Y_t · e)` of `calc_accounts` (implementation absent
from `src/`), `e` being the summation vector. -/
def D_exp (S : Matrix H (R × Sec) ℚ) (L : Matrix (R × Sec) (R × Sec) ℚ)
    (Y : Matrix (R × Sec) (R × C) ℚ) : Matrix H (R × Sec) ℚ :=
  S * Matrix.diagonal ((L * Y_t Y).mulVec sumVec)

/-- Modelled from the spec: the per-region production-based account
`D_pba^i = Σ_s F^i_s + Σ_c F_Y^i_c` — territorial stressors of region `i`
plus the region's final-demand impacts. -/
def D_pba_reg (F : Matrix H (R × Sec) ℚ) (F_Y : Matrix H (R × C) ℚ) :
    H → R → ℚ :=
  fun h i => (∑ s, F h (i, s)) + ∑ c, F_Y h (i, c)

/-- Modelled from the spec: the per-region consumption-based account
`D_cba^i = Σ_c (S·L·Y)^i_c + Σ_c F_Y^i_c` — the detailed footprint
(`M·Y` with `M = S·L`) summed over region `i`'s final-demand columns,
plus the region's final-demand impacts. -/
def D_cba_reg (S : Matrix H (R × Sec) ℚ) (L : Matrix (R × Sec) (R × Sec) ℚ)
    (Y : Matrix (R × Sec) (R × C) ℚ) (F_Y : Matrix H (R × C) ℚ) :
    H → R → ℚ :=
  fun h i => (∑ c, (S * L * Y) h (i, c)) + ∑ c, F_Y h (i, c)

/-- Modelled from the spec: the per-region import-embodied account — the
detailed `D_imp` summed over region `i`'s final-demand columns. -/
def D_imp_reg (S : Matrix H (R × Sec) ℚ) (L : Matrix (R × Sec) (R × Sec) ℚ)
    (Y : Matrix (R × Sec) (R × C) ℚ) : H → R → ℚ :=
  fun h i => ∑ c, D_imp S L Y h (i, c)

/-- Modelled from the spec: the per-region export-embodied account — the
detailed `D_exp` summed over region `i`'s sectors. -/
def D_exp_reg (S : Matrix H (R × Sec) ℚ) (L : Matrix (R × Sec) (R × Sec) ℚ)
    (Y : Matrix (R × Sec) (R × C) ℚ) : H → R → ℚ :=
  fun h i => ∑ s, D_exp S L Y h (i, s)

end Accounts

/-- C5: the import-embodied account is exactly `S · L · Y_t` and the
export-embodied account exactly `S · diag(L · Y_t · e)`, where `Y_t`
zeroes precisely each region's own domestic-satisfying final-demand block
and keeps every cross-region entry; entrywise, `D_imp` and `D_exp` unfold
to the corresponding double sums. -/
theorem calc_accounts_trade_spec {R Sec C H : Type*}
    [Fintype R] [Fintype Sec] [Fintype C] [Fintype H]
    [DecidableEq R] [DecidableEq Sec]
    (S : Matrix H (R × Sec) ℚ) (L : Matrix (R × Sec) (R × Sec) ℚ)
    (Y : Matrix (R × Sec) (R × C) ℚ) :
    (∀ p q, (p.1 = q.1 → Y_t Y p q = 0) ∧ (p.1 ≠ q.1 → Y_t Y p q = Y p q)) ∧
    D_imp S L Y = S * L * Y_t Y ∧
    D_exp S L Y = S * Matrix.diagonal ((L * Y_t Y).mulVec sumVec) ∧
    (∀ h q, D_imp S L Y h q = ∑ r, (∑ p, S h p * L p r) * Y_t Y r q) ∧
    (∀ h p, D_exp S L Y h p = S h p * ∑ q, ∑ r, L p r * Y_t Y r q) := by
  refine ⟨?_, rfl, rfl, ?_, ?_⟩
  · intro p q
    constructor
    · intro hpq; simp [Y_t, hpq]
    · intro hpq; simp [Y_t, hpq]
  · intro h q
    simp [D_imp, Matrix.mul_apply]
  · intro h p
    rw [D_exp, Matrix.mul_diagonal]
    congr 1
    simp [Matrix.mulVec, Matrix.dotProduct, Matrix.mul_apply, sumVec]

/-- A concrete 2-region, 1-sector, 1-category, 1-stressor system used for
the account computations: region 1 supplies one unit of intermediate input
to region 0, whose only final demand is satisfied domestically. -/
def exZ : Matrix (Fin 2 × Fin 1) (Fin 2 × Fin 1) ℚ :=
  Matrix.of fun p q => if p.1 = 1 ∧ q.1 = 0 then 1 else 0

/-- Final demand of the concrete system: one unit of domestic final demand
in region 0. -/
def exY : Matrix (Fin 2 × Fin 1) (Fin 2 × Fin 1) ℚ :=
  Matrix.of fun p q => if p.1 = 0 ∧ q.1 = 0 then 1 else 0

/-- Stressor table of the concrete system: one unit per sector. -/
def exF : Matrix (Fin 1) (Fin 2 × Fin 1) ℚ := Matrix.of fun _ _ => 1

/-- Final-demand impact table of the concrete system: zero. -/
def exFY : Matrix (Fin 1) (Fin 2 × Fin 1) ℚ := 0

/-- Industry output of the concrete system. -/
def exx : (Fin 2 × Fin 1) → ℚ := calc_x exZ exY

/-- Coefficient matrix of the concrete system. -/
def exA : Matrix (Fin 2 × Fin 1) (Fin 2 × Fin 1) ℚ := calc_A exZ exx

/-- Leontief inverse of the concrete system (verified as a two-sided
inverse of `I - A` in the counterexample theorem). -/
def exL : Matrix (Fin 2 × Fin 1) (Fin 2 × Fin 1) ℚ :=
  Matrix.of fun p q => if p.1 = 0 ∧ q.1 = 1 then 0 else 1

/-- Stressor coefficients of the concrete system. -/
def exS : Matrix (Fin 1) (Fin 2 × Fin 1) ℚ := calc_S exF exx

/-- Witness for C5 at the concrete system: the domestic block of `Y_t` is
zero, a cross-region entry is kept, and the entrywise unfolding of the
detailed trade accounts holds at index (0, (0,0)). -/
theorem calc_accounts_trade_spec_witness :
    Y_t exY ((0 : Fin 2), (0 : Fin 1)) ((0 : Fin 2), (0 : Fin 1)) = 0 ∧
    Y_t exY ((1 : Fin 2), (0 : Fin 1)) ((0 : Fin 2), (0 : Fin 1)) =
      exY ((1 : Fin 2), (0 : Fin 1)) ((0 : Fin 2), (0 : Fin 1)) ∧
    D_imp exS exL exY 0 ((0 : Fin 2), (0 : Fin 1)) =
      ∑ r, (∑ p, exS 0 p * exL p r) * Y_t exY r ((0 : Fin 2), (0 : Fin 1)) ∧
    D_exp exS exL exY 0 ((0 : Fin 2), (0 : Fin 1)) =
      exS 0 ((0 : Fin 2), (0 : Fin 1)) *
        ∑ q, ∑ r, exL ((0 : Fin 2), (0 : Fin 1)) r * Y_t exY r q := by
  refine ⟨?_, ?_, ?_, ?_⟩
  · exact ((calc_accounts_trade_spec exS exL exY).1 _ _).1 rfl
  · exact ((calc_accounts_trade_spec exS exL exY).1 _ _).2 (by decide)
  · exact (calc_accounts_trade_spec exS exL exY).2.2.2.1 0 _
  · exact (calc_accounts_trade_spec exS exL exY).2.2.2.2 0 _

/-- Counterexample for C4: in the concrete two-region system — with `x`,
`A`, `S` computed by the modelled calculation chain and `L` verified as
the two-sided Leontief inverse — the claimed identity
`D_cba^i = D_pba^i + D_imp^i - D_exp^i` fails for region 0 when the trade
accounts follow the documented formulas `D_imp = S·L·Y_t` and
`D_exp = S·diag(L·Y_t·e)`: the left side is 2 (the footprint includes the
upstream imports embodied in domestically satisfied final demand) while
the right side is 1. -/
theorem calc_accounts_identity_cex :
    exx = calc_x exZ exY ∧ exA = calc_A exZ exx ∧ exS = calc_S exF exx ∧
    (1 - exA) * exL = 1 ∧ exL * (1 - exA) = 1 ∧
    ¬ (D_cba_reg exS exL exY exFY 0 0 =
        D_pba_reg exF exFY 0 0 + D_imp_reg exS exL exY 0 0
          - D_exp_reg exS exL exY 0 0) := by
  refine ⟨rfl, rfl, rfl, ?_, ?_, ?_⟩
  · ext p q
    obtain ⟨pr, ps⟩ := p
    obtain ⟨qr, qs⟩ := q
    fin_cases pr <;> fin_cases ps <;> fin_cases qr <;> fin_cases qs <;>
      norm_num [-Finset.sum_boole, exA, exL, exZ, exY, exx, calc_A, calc_x,
        recipGuard, Matrix.mul_apply, Matrix.one_apply, Matrix.sub_apply,
        Prod.ext_iff, Fintype.sum_prod_type, Fin.sum_univ_two, Fin.sum_univ_one]
  · ext p q
    obtain ⟨pr, ps⟩ := p
    obtain ⟨qr, qs⟩ := q
    fin_cases pr <;> fin_cases ps <;> fin_cases qr <;> fin_cases qs <;>
      norm_num [-Finset.sum_boole, exA, exL, exZ, exY, exx, calc_A, calc_x,
        recipGuard, Matrix.mul_apply, Matrix.one_apply, Matrix.sub_apply,
        Prod.ext_iff, Fintype.sum_prod_type, Fin.sum_univ_two, Fin.sum_univ_one]
  · norm_num [-Finset.sum_boole, D_cba_reg, D_pba_reg, D_imp_reg, D_exp_reg,
      D_imp, D_exp, Y_t, exS, exF, exFY, exL, exY, exx, exZ, calc_S, calc_x,
      recipGuard, Matrix.mul_apply, Matrix.mulVec, Matrix.dotProduct,
      Matrix.diagonal, sumVec, Fintype.sum_prod_type, Fin.sum_univ_two,
      Fin.sum_univ_one]

section AccountsAmended

variable {R Sec C H : Type*} [Fintype R] [Fintype Sec] [Fintype C] [Fintype H]
variable [DecidableEq R]

/-- Total final demand of region `i` for each product, summed over the
region's final-demand categories. -/
def yreg (Y : Matrix (R × Sec) (R × C) ℚ) (i : R) : (R × Sec) → ℚ :=
  fun q => ∑ c, Y q (i, c)

/-- Global final demand for each product, summed over all demanding
regions and categories. -/
def ytot (Y : Matrix (R × Sec) (R × C) ℚ) : (R × Sec) → ℚ :=
  fun q => ∑ w, Y q w

/-- Amended per-region import-embodied account: the foreign-region rows of
region `i`'s detailed footprint — stressors released outside region `i` by
production ultimately serving region `i`'s final demand. -/
def D_imp_dec (S : Matrix H (R × Sec) ℚ) (L : Matrix (R × Sec) (R × Sec) ℚ)
    (Y : Matrix (R × Sec) (R × C) ℚ) : H → R → ℚ :=
  fun h i => ∑ p, if p.1 = i then 0 else S h p * L.mulVec (yreg Y i) p

/-- Amended per-region export-embodied account: stressors released inside
region `i` by production ultimately serving other regions' final
demand. -/
def D_exp_dec (S : Matrix H (R × Sec) ℚ) (L : Matrix (R × Sec) (R × Sec) ℚ)
    (Y : Matrix (R × Sec) (R × C) ℚ) : H → R → ℚ :=
  fun h i =>
    ∑ p, if p.1 = i then S h p * L.mulVec (ytot Y - yreg Y i) p else 0

/-- Summing an `(i, s)`-indexed family over the sectors of one region
equals summing over all region×sector pairs with the other regions
masked. -/
theorem sum_region_ite (f : R × Sec → ℚ) (i : R) :
    ∑ s, f (i, s) = ∑ p : R × Sec, if p.1 = i then f p else 0 := by
  rw [Fintype.sum_prod_type]
  have hinner : ∀ r : R,
      (∑ s, if r = i then f (r, s) else 0) =
        if r = i then ∑ s, f (r, s) else 0 := by
    intro r
    split_ifs <;> simp
  calc ∑ s, f (i, s)
      = if i ∈ (Finset.univ : Finset R) then ∑ s, f (i, s) else 0 := by
        rw [if_pos (Finset.mem_univ i)]
    _ = ∑ r, if r = i then ∑ s, f (r, s) else 0 :=
        (Finset.sum_ite_eq' Finset.univ i fun r => ∑ s, f (r, s)).symm
    _ = ∑ r, ∑ s, if r = i then f (r, s) else 0 := by
        exact Finset.sum_congr rfl fun r _ => (hinner r).symm

/-- The output balance: `(I - A)·x = Y·e` whenever `x` is the computed
output and every zero-output sector receives no intermediate inputs. -/
theorem sub_A_mulVec_x [DecidableEq Sec] (Z : Matrix (R × Sec) (R × Sec) ℚ)
    (Y : Matrix (R × Sec) (R × C) ℚ) (x : (R × Sec) → ℚ)
    (hx : x = calc_x Z Y)
    (hZ0 : ∀ q, x q = 0 → ∀ p, Z p q = 0) :
    (1 - calc_A Z x).mulVec x = ytot Y := by
  funext p
  have hAx : ∀ q, calc_A Z x p q * x q = Z p q := by
    intro q
    by_cases hq : x q = 0
    · simp [calc_A, recipGuard, hq, hZ0 q hq p]
    · simp [calc_A, recipGuard, hq]
  have : Matrix.mulVec (1 - calc_A Z x) x p = x p - ∑ q, calc_A Z x p q * x q := by
    simp only [Matrix.mulVec, Matrix.dotProduct, Matrix.sub_apply, sub_mul,
      Finset.sum_sub_distrib]
    congr 1
    simp [Matrix.one_apply, ite_mul]
  rw [this, Finset.sum_congr rfl fun q _ => hAx q, hx]
  simp [calc_x, ytot]

end AccountsAmended

/-- C4 (amended): the per-region consistency identity
`D_cba^i = D_pba^i + D_imp^i - D_exp^i` holds on a fully calculated system
(`x`, `A`, `S` from the calculation chain, `L` a true Leontief inverse,
zero-output sectors receiving no inputs and emitting no stressors) once
the trade accounts are the footprint decomposition: `D_imp^i` the
foreign-region rows of region `i`'s detailed footprint, `D_exp^i` the
domestic stressors serving other regions' final demand — rather than the
documented formulas `S·L·Y_t` and `S·diag(L·Y_t·e)`, which the
counterexample refutes. -/
theorem calc_accounts_identity_amended {R Sec C H : Type*}
    [Fintype R] [Fintype Sec] [Fintype C] [Fintype H]
    [DecidableEq R] [DecidableEq Sec]
    (Z : Matrix (R × Sec) (R × Sec) ℚ) (Y : Matrix (R × Sec) (R × C) ℚ)
    (F : Matrix H (R × Sec) ℚ) (F_Y : Matrix H (R × C) ℚ)
    (L : Matrix (R × Sec) (R × Sec) ℚ) (x : (R × Sec) → ℚ)
    (S : Matrix H (R × Sec) ℚ)
    (hx : x = calc_x Z Y) (hS : S = calc_S F x)
    (hZ0 : ∀ q, x q = 0 → ∀ p, Z p q = 0)
    (hF0 : ∀ h p, x p = 0 → F h p = 0)
    (hL : L * (1 - calc_A Z x) = 1) :
    ∀ h i, D_cba_reg S L Y F_Y h i =
      D_pba_reg F F_Y h i + D_imp_dec S L Y h i - D_exp_dec S L Y h i := by
  intro h i
  have hLx : L.mulVec (ytot Y) = x := by
    rw [← sub_A_mulVec_x Z Y x hx hZ0, Matrix.mulVec_mulVec, hL,
      Matrix.one_mulVec]
  have hFS : ∀ p, F h p = S h p * x p := by
    intro p
    by_cases hp : x p = 0
    · simp [hS, calc_S, recipGuard, hp, hF0 h p hp]
    · simp only [hS, calc_S, recipGuard, Matrix.of_apply, if_neg hp]
      rw [mul_assoc, inv_mul_cancel₀ hp, mul_one]
  have hfoot : ∑ c, (S * L * Y) h (i, c) =
      ∑ p, S h p * L.mulVec (yreg Y i) p := by
    simp only [Matrix.mul_apply, Matrix.mulVec, Matrix.dotProduct, yreg]
    rw [Finset.sum_comm]
    have step1 : ∀ j, (∑ c, (∑ k, S h k * L k j) * Y j (i, c)) =
        ∑ k, S h k * (L k j * ∑ c, Y j (i, c)) := by
      intro j
      rw [← Finset.mul_sum, Finset.sum_mul]
      exact Finset.sum_congr rfl fun k _ => by ring
    rw [Finset.sum_congr rfl fun j _ => step1 j, Finset.sum_comm]
    exact Finset.sum_congr rfl fun k _ => (Finset.mul_sum _ _ _).symm
  have hpba : ∑ s, F h (i, s) =
      ∑ p : R × Sec, if p.1 = i then S h p * L.mulVec (ytot Y) p else 0 := by
    rw [sum_region_ite (fun p => F h p) i]
    refine Finset.sum_congr rfl fun p _ => ?_
    split_ifs
    · rw [hFS p, hLx]
    · rfl
  have key : (∑ p, S h p * L.mulVec (yreg Y i) p) =
      ((∑ p : R × Sec, if p.1 = i then S h p * L.mulVec (ytot Y) p else 0) +
        ∑ p : R × Sec, if p.1 = i then 0 else S h p * L.mulVec (yreg Y i) p) -
      ∑ p : R × Sec,
        if p.1 = i then S h p * (L.mulVec (ytot Y) p - L.mulVec (yreg Y i) p)
        else 0 := by
    rw [← Finset.sum_add_distrib, ← Finset.sum_sub_distrib]
    refine Finset.sum_congr rfl fun p _ => ?_
    split_ifs <;> ring
  simp only [D_cba_reg, D_pba_reg, D_imp_dec, D_exp_dec, Matrix.mulVec_sub,
    Pi.sub_apply]
  rw [hfoot, hpba]
  linarith [key]

/-- Witness for the amended C4 at the concrete two-region system: all
hypotheses hold (positive output everywhere, `L` a left inverse of
`I - A`) and the decomposition identity gives 2 = 1 + 1 - 0 for
region 0. -/
theorem calc_accounts_identity_amended_witness :
    (∀ q, exx q = 0 → ∀ p, exZ p q = 0) ∧
    (∀ h p, exx p = 0 → exF h p = 0) ∧
    exL * (1 - calc_A exZ exx) = 1 ∧
    D_cba_reg exS exL exY exFY 0 0 =
      D_pba_reg exF exFY 0 0 + D_imp_dec exS exL exY 0 0
        - D_exp_dec exS exL exY 0 0 := by
  have hZ0 : ∀ q, exx q = 0 → ∀ p, exZ p q = 0 := by
    intro q hq p
    exfalso
    revert hq
    obtain ⟨qr, qs⟩ := q
    fin_cases qr <;> fin_cases qs <;>
      norm_num [-Finset.sum_boole, exx, calc_x, exZ, exY,
        Fintype.sum_prod_type, Fin.sum_univ_two, Fin.sum_univ_one]
  have hF0 : ∀ h p, exx p = 0 → exF h p = 0 := by
    intro h p hp
    exfalso
    revert hp
    obtain ⟨pr, ps⟩ := p
    fin_cases pr <;> fin_cases ps <;>
      norm_num [-Finset.sum_boole, exx, calc_x, exZ, exY,
        Fintype.sum_prod_type, Fin.sum_univ_two, Fin.sum_univ_one]
  have hL : exL * (1 - calc_A exZ exx) = 1 := by
    ext p q
    obtain ⟨pr, ps⟩ := p
    obtain ⟨qr, qs⟩ := q
    fin_cases pr <;> fin_cases ps <;> fin_cases qr <;> fin_cases qs <;>
      norm_num [-Finset.sum_boole, exL, exZ, exY, exx, calc_A, calc_x,
        recipGuard, Matrix.mul_apply, Matrix.one_apply, Matrix.sub_apply,
        Prod.ext_iff, Fintype.sum_prod_type, Fin.sum_univ_two,
        Fin.sum_univ_one]
  exact ⟨hZ0, hF0, hL,
    calc_accounts_identity_amended exZ exY exF exFY exL exx exS rfl rfl
      hZ0 hF0 hL 0 0⟩

section SystemModel

variable {R Sec C H : Type*} [Fintype R] [Fintype Sec] [Fintype C] [Fintype H]
variable [DecidableEq R] [DecidableEq Sec]

/-- Modelled from the spec: the MRIO system state (`IOSystem` with one
attached extension; implementation absent from `src/`).  Raw tables `Z`,
`Y`, `F`, `F_Y` are always present; every derived table is an optional
field, mirroring the duck-typed presence checks the spec describes. -/
structure MRIOSys (R Sec C H : Type*) where
  Z : Matrix (R × Sec) (R × Sec) ℚ
  Y : Matrix (R × Sec) (R × C) ℚ
  F : Matrix H (R × Sec) ℚ
  F_Y : Matrix H (R × C) ℚ
  x : Option ((R × Sec) → ℚ)
  A : Option (Matrix (R × Sec) (R × Sec) ℚ)
  L : Option (Matrix (R × Sec) (R × Sec) ℚ)
  S : Option (Matrix H (R × Sec) ℚ)
  M : Option (Matrix H (R × Sec) ℚ)
  D_cba : Option (H → R → ℚ)
  D_pba : Option (H → R → ℚ)
  D_imp : Option (Matrix H (R × C) ℚ)
  D_exp : Option (Matrix H (R × Sec) ℚ)

/-- The output vector `calc_all` works with: the stored one if present,
else freshly computed. -/
def sysX (s : MRIOSys R Sec C H) : (R × Sec) → ℚ :=
  s.x.getD (calc_x s.Z s.Y)

/-- The coefficient matrix `calc_all` works with: stored if present, else
computed from `Z` and the (possibly just computed) output. -/
def sysA (s : MRIOSys R Sec C H) : Matrix (R × Sec) (R × Sec) ℚ :=
  s.A.getD (calc_A s.Z (sysX s))

/-- Modelled from the spec: `IOSystem.calc_all` (API reference: checks the
system and its extensions for missing parts and calculates these).  Each
table is computed only if absent, in dependency order `x`, `A`, `L`, `S`,
`M`, then the `D_*` accounts; a singular Leontief inversion aborts the
whole call with the error. -/
def calc_all (s : MRIOSys R Sec C H) : Except String (MRIOSys R Sec C H) :=
  match s.L with
  | Option.none =>
      match calc_L (sysA s) with
      | Except.error e => Except.error e
      | Except.ok Lv =>
          let Sv := s.S.getD (calc_S s.F (sysX s))
          Except.ok { s with
            x := some (sysX s), A := some (sysA s), L := some Lv,
            S := some Sv, M := some (s.M.getD (Sv * Lv)),
            D_cba := some (s.D_cba.getD (D_cba_reg Sv Lv s.Y s.F_Y)),
            D_pba := some (s.D_pba.getD (D_pba_reg s.F s.F_Y)),
            D_imp := some (s.D_imp.getD (D_imp Sv Lv s.Y)),
            D_exp := some (s.D_exp.getD (D_exp Sv Lv s.Y)) }
  | Option.some Lv =>
      let Sv := s.S.getD (calc_S s.F (sysX s))
      Except.ok { s with
        x := some (sysX s), A := some (sysA s), L := some Lv,
        S := some Sv, M := some (s.M.getD (Sv * Lv)),
        D_cba := some (s.D_cba.getD (D_cba_reg Sv Lv s.Y s.F_Y)),
        D_pba := some (s.D_pba.getD (D_pba_reg s.F s.F_Y)),
        D_imp := some (s.D_imp.getD (D_imp Sv Lv s.Y)),
        D_exp := some (s.D_exp.getD (D_exp Sv Lv s.Y)) }

end SystemModel

section SystemSpec

variable {R Sec C H : Type*} [Fintype R] [Fintype Sec] [Fintype C]
variable [DecidableEq R] [DecidableEq Sec]

/-- The stressor-coefficient table `calc_all` works with: stored if
present, else computed. -/
def sysS (s : MRIOSys R Sec C H) : Matrix H (R × Sec) ℚ :=
  s.S.getD (calc_S s.F (sysX s))

/-- C6: a successful `calc_all` leaves the raw tables untouched, preserves
every already-present derived table identically (nothing is recomputed),
computes each missing table from its dependency-order predecessors
(`x` from `Z`,`Y`; `A` from `Z`,`x`; `L` from `A`; `S` from `F`,`x`; `M`
from `S`,`L`; the `D_*` accounts from `S`,`L`,`Y`,`F`,`F_Y`), and is
idempotent: running `calc_all` again on the result recomputes nothing and
returns the result unchanged. -/
theorem calc_all_spec (s s' : MRIOSys R Sec C H)
    (h : calc_all s = Except.ok s') :
    (s'.Z = s.Z ∧ s'.Y = s.Y ∧ s'.F = s.F ∧ s'.F_Y = s.F_Y) ∧
    ((∀ v, s.x = some v → s'.x = some v) ∧
     (∀ v, s.A = some v → s'.A = some v) ∧
     (∀ v, s.L = some v → s'.L = some v) ∧
     (∀ v, s.S = some v → s'.S = some v) ∧
     (∀ v, s.M = some v → s'.M = some v) ∧
     (∀ v, s.D_cba = some v → s'.D_cba = some v) ∧
     (∀ v, s.D_pba = some v → s'.D_pba = some v) ∧
     (∀ v, s.D_imp = some v → s'.D_imp = some v) ∧
     (∀ v, s.D_exp = some v → s'.D_exp = some v)) ∧
    ((s.x = none → s'.x = some (calc_x s.Z s.Y)) ∧
     (s.A = none → s'.A = some (calc_A s.Z (sysX s))) ∧
     (s.L = none → ∃ Lv, calc_L (sysA s) = Except.ok Lv ∧ s'.L = some Lv) ∧
     (s.S = none → s'.S = some (calc_S s.F (sysX s))) ∧
     (s.M = none → ∃ Lv, s'.L = some Lv ∧ s'.M = some (sysS s * Lv)) ∧
     (s.D_cba = none → ∃ Lv, s'.L = some Lv ∧
        s'.D_cba = some (D_cba_reg (sysS s) Lv s.Y s.F_Y)) ∧
     (s.D_pba = none → s'.D_pba = some (D_pba_reg s.F s.F_Y)) ∧
     (s.D_imp = none → ∃ Lv, s'.L = some Lv ∧
        s'.D_imp = some (D_imp (sysS s) Lv s.Y)) ∧
     (s.D_exp = none → ∃ Lv, s'.L = some Lv ∧
        s'.D_exp = some (D_exp (sysS s) Lv s.Y))) ∧
    calc_all s' = Except.ok s' := by
  cases hL : s.L with
  | some Lv =>
      unfold calc_all at h
      rw [hL] at h
      simp only [Except.ok.injEq] at h
      subst h
      refine ⟨⟨rfl, rfl, rfl, rfl⟩, ?_, ?_, rfl⟩
      · refine ⟨fun v hv => by simp [sysX, hv], fun v hv => ?_, fun v hv => hv,
          fun v hv => by simp [hv], fun v hv => by simp [hv],
          fun v hv => by simp [hv], fun v hv => by simp [hv],
          fun v hv => by simp [hv], fun v hv => by simp [hv]⟩
        simp [sysA, sysX, hv]
      · exact ⟨fun hv => by simp [sysX, hv],
          fun hv => by simp [sysA, hv],
          fun hv => Option.noConfusion hv,
          fun hv => by simp [hv],
          fun hv => ⟨Lv, rfl, by simp [sysS, hv]⟩,
          fun hv => ⟨Lv, rfl, by simp [sysS, hv]⟩,
          fun hv => by simp [hv],
          fun hv => ⟨Lv, rfl, by simp [sysS, hv]⟩,
          fun hv => ⟨Lv, rfl, by simp [sysS, hv]⟩⟩
  | none =>
      unfold calc_all at h
      rw [hL] at h
      cases hcl : calc_L (sysA s) with
      | error e => rw [hcl] at h; cases h
      | ok Lv =>
          rw [hcl] at h
          simp only [Except.ok.injEq] at h
          subst h
          refine ⟨⟨rfl, rfl, rfl, rfl⟩, ?_, ?_, rfl⟩
          · exact ⟨fun v hv => by simp [sysX, hv],
              fun v hv => by simp [sysA, sysX, hv],
              fun v hv => Option.noConfusion hv,
              fun v hv => by simp [hv],
              fun v hv => by simp [hv],
              fun v hv => by simp [hv],
              fun v hv => by simp [hv],
              fun v hv => by simp [hv],
              fun v hv => by simp [hv]⟩
          · exact ⟨fun hv => by simp [sysX, hv],
              fun hv => by simp [sysA, hv],
              fun hv => ⟨Lv, rfl, rfl⟩,
              fun hv => by simp [hv],
              fun hv => ⟨Lv, rfl, by simp [sysS, hv]⟩,
              fun hv => ⟨Lv, rfl, by simp [sysS, hv]⟩,
              fun hv => by simp [hv],
              fun hv => ⟨Lv, rfl, by simp [sysS, hv]⟩,
              fun hv => ⟨Lv, rfl, by simp [sysS, hv]⟩⟩

end SystemSpec

/-- A concrete fully calculated 1-region, 1-sector system: every derived
table present. -/
def exSys : MRIOSys (Fin 1) (Fin 1) (Fin 1) (Fin 1) where
  Z := 0
  Y := 0
  F := 0
  F_Y := 0
  x := some (fun _ => 0)
  A := some 0
  L := some 1
  S := some 0
  M := some 0
  D_cba := some (fun _ _ => 0)
  D_pba := some (fun _ _ => 0)
  D_imp := some 0
  D_exp := some 0

/-- Witness for C6: on the fully calculated concrete system, `calc_all`
succeeds and returns it unchanged (idempotence), and the present `x` table
is preserved identically. -/
theorem calc_all_spec_witness :
    calc_all exSys = Except.ok exSys ∧ exSys.x = some (fun _ => 0) :=
  ⟨(calc_all_spec exSys exSys rfl).2.2.2,
   (calc_all_spec exSys exSys rfl).2.1.1 (fun _ => 0) rfl⟩

section Aggregation

variable {R Sec C H R2 Sec2 : Type*}
variable [Fintype R] [Fintype Sec] [Fintype C] [Fintype H]
variable [Fintype R2] [Fintype Sec2]
variable [DecidableEq R] [DecidableEq Sec] [DecidableEq C]
variable [DecidableEq R2] [DecidableEq Sec2]

/-- A 0/1 partition (concordance) matrix built from a grouping map: entry
`(g, r)` is 1 exactly when original key `r` belongs to group `g`, so each
column holds exactly one 1 — a total, non-overlapping partition. -/
def partMatrix (fk : R → R2) : Matrix R2 R ℚ :=
  Matrix.of fun g r => if fk r = g then 1 else 0

/-- Modelled from the spec: the combined spatial×sectoral aggregation
matrix `B = B_region ⊗ B_sector` (Kronecker product). -/
def aggB (fk : R → R2) (fn : Sec → Sec2) : Matrix (R2 × Sec2) (R × Sec) ℚ :=
  Matrix.kroneckerMap (· * ·) (partMatrix fk) (partMatrix fn)

/-- Modelled from the spec: `IOSystem.aggregate` on the transaction table,
`Z_agg = B·Z·Bᵀ`. -/
def Z_agg (fk : R → R2) (fn : Sec → Sec2)
    (Z : Matrix (R × Sec) (R × Sec) ℚ) : Matrix (R2 × Sec2) (R2 × Sec2) ℚ :=
  aggB fk fn * Z * (aggB fk fn)ᵀ

/-- Modelled from the spec: `IOSystem.aggregate` on the final-demand
table, `Y_agg = B·Y·(B_region ⊗ I)ᵀ` with `I` the identity on the
final-demand categories. -/
def Y_agg (fk : R → R2) (fn : Sec → Sec2)
    (Y : Matrix (R × Sec) (R × C) ℚ) : Matrix (R2 × Sec2) (R2 × C) ℚ :=
  aggB fk fn * Y *
    (Matrix.kroneckerMap (· * ·) (partMatrix fk) (1 : Matrix C C ℚ))ᵀ

/-- Modelled from the spec: `IOSystem.aggregate` on an extension's
stressor table, `F_agg = F·Bᵀ`. -/
def F_agg (fk : R → R2) (fn : Sec → Sec2)
    (F : Matrix H (R × Sec) ℚ) : Matrix H (R2 × Sec2) ℚ :=
  F * (aggB fk fn)ᵀ

/-- Modelled from the spec: `IOSystem.aggregate` on an extension's
final-demand impact table, `F_Y,agg = F_Y·(B_region ⊗ I)ᵀ`. -/
def FY_agg (fk : R → R2) (F_Y : Matrix H (R × C) ℚ) :
    Matrix H (R2 × C) ℚ :=
  F_Y * (Matrix.kroneckerMap (· * ·) (partMatrix fk) (1 : Matrix C C ℚ))ᵀ

end Aggregation

/-- The identity grouping map yields the identity partition matrix. -/
theorem partMatrix_id {R : Type*} [DecidableEq R] :
    partMatrix (fun r : R => r) = (1 : Matrix R R ℚ) := by
  ext g r
  simp [partMatrix, Matrix.one_apply, eq_comm]

/-- The Kronecker product of two identity partition matrices is the
identity. -/
theorem kron_one_one {R Sec : Type*} [DecidableEq R] [DecidableEq Sec] :
    Matrix.kroneckerMap (· * ·) (1 : Matrix R R ℚ) (1 : Matrix Sec Sec ℚ) =
      (1 : Matrix (R × Sec) (R × Sec) ℚ) := by
  ext p q
  simp only [Matrix.kroneckerMap_apply, Matrix.one_apply, Prod.ext_iff]
  split_ifs <;> simp_all

/-- C7: aggregation applies the Kronecker operator `B = B_region ⊗
B_sector` uniformly — entrywise, each aggregated entry of `Z_agg =
B·Z·Bᵀ`, `Y_agg = B·Y·(B_region ⊗ I)ᵀ`, `F_agg = F·Bᵀ` and `F_Y,agg =
F_Y·(B_region ⊗ I)ᵀ` is exactly the sum of the original entries over the
member keys of its groups, for the system tables and the extension tables
alike (so all axes stay aligned on the same aggregated keys); and
aggregating by the identity partition reproduces every table exactly. -/
theorem aggregate_spec {R Sec C H R2 Sec2 : Type*}
    [Fintype R] [Fintype Sec] [Fintype C] [Fintype H]
    [Fintype R2] [Fintype Sec2]
    [DecidableEq R] [DecidableEq Sec] [DecidableEq C]
    [DecidableEq R2] [DecidableEq Sec2]
    (fk : R → R2) (fn : Sec → Sec2)
    (Z : Matrix (R × Sec) (R × Sec) ℚ) (Y : Matrix (R × Sec) (R × C) ℚ)
    (F : Matrix H (R × Sec) ℚ) (F_Y : Matrix H (R × C) ℚ) :
    (∀ g w, Z_agg fk fn Z g w =
      ∑ p, ∑ q, if fk p.1 = g.1 ∧ fn p.2 = g.2 ∧ fk q.1 = w.1 ∧ fn q.2 = w.2
        then Z p q else 0) ∧
    (∀ g w, Y_agg fk fn Y g w =
      ∑ p, ∑ q : R × C, if fk p.1 = g.1 ∧ fn p.2 = g.2 ∧ fk q.1 = w.1 ∧
        q.2 = w.2 then Y p q else 0) ∧
    (∀ h g, F_agg fk fn F h g =
      ∑ p, if fk p.1 = g.1 ∧ fn p.2 = g.2 then F h p else 0) ∧
    (∀ h w, FY_agg fk F_Y h w =
      ∑ q : R × C, if fk q.1 = w.1 ∧ q.2 = w.2 then F_Y h q else 0) ∧
    Z_agg (fun r : R => r) (fun s : Sec => s) Z = Z ∧
    Y_agg (fun r : R => r) (fun s : Sec => s) Y = Y ∧
    F_agg (fun r : R => r) (fun s : Sec => s) F = F ∧
    FY_agg (fun r : R => r) F_Y = F_Y := by
  have hB1 : aggB (fun r : R => r) (fun s : Sec => s) =
      (1 : Matrix (R × Sec) (R × Sec) ℚ) := by
    rw [aggB, partMatrix_id, partMatrix_id, kron_one_one]
  have hBY1 : Matrix.kroneckerMap (· * ·) (partMatrix (fun r : R => r))
      (1 : Matrix C C ℚ) = (1 : Matrix (R × C) (R × C) ℚ) := by
    rw [partMatrix_id, kron_one_one]
  refine ⟨?_, ?_, ?_, ?_, ?_, ?_, ?_, ?_⟩
  · intro g w
    simp only [Z_agg, Matrix.mul_apply, Matrix.transpose_apply, aggB,
      Matrix.kroneckerMap_apply, partMatrix, Matrix.of_apply, Finset.sum_mul]
    rw [Finset.sum_comm]
    refine Finset.sum_congr rfl fun p _ => Finset.sum_congr rfl fun q _ => ?_
    split_ifs <;> simp_all
  · intro g w
    simp only [Y_agg, Matrix.mul_apply, Matrix.transpose_apply, aggB,
      Matrix.kroneckerMap_apply, partMatrix, Matrix.of_apply,
      Matrix.one_apply, Finset.sum_mul]
    rw [Finset.sum_comm]
    refine Finset.sum_congr rfl fun p _ => Finset.sum_congr rfl fun q _ => ?_
    split_ifs <;> simp_all
  · intro h g
    simp only [F_agg, Matrix.mul_apply, Matrix.transpose_apply, aggB,
      Matrix.kroneckerMap_apply, partMatrix, Matrix.of_apply]
    refine Finset.sum_congr rfl fun p _ => ?_
    split_ifs <;> simp_all
  · intro h w
    simp only [FY_agg, Matrix.mul_apply, Matrix.transpose_apply,
      Matrix.kroneckerMap_apply, partMatrix, Matrix.of_apply,
      Matrix.one_apply]
    refine Finset.sum_congr rfl fun q _ => ?_
    split_ifs <;> simp_all
  · rw [Z_agg, hB1, Matrix.transpose_one, Matrix.one_mul, Matrix.mul_one]
  · rw [Y_agg, hB1, hBY1, Matrix.transpose_one, Matrix.one_mul,
      Matrix.mul_one]
  · rw [F_agg, hB1, Matrix.transpose_one, Matrix.mul_one]
  · rw [FY_agg, hBY1, Matrix.transpose_one, Matrix.mul_one]

section Characterize

variable {St T Reg SecC : Type*} [DecidableEq T] [DecidableEq Reg]

/-- Modelled from the spec: one row of a characterization bridge table —
a source stressor key, an optional region restriction (region-specific
factors), a target impact category, and the weighting factor. -/
structure BridgeEntry (St T Reg : Type*) where
  src : St
  region : Option Reg
  tgt : T
  factor : ℚ

/-- Modelled from the spec: whether a bridge row applies to a source
column — either it carries no region restriction (a global factor) or its
region restriction matches the column's region. -/
def rowApplies (e : BridgeEntry St T Reg) (r : Reg) : Bool :=
  match e.region with
  | Option.none => true
  | Option.some v => decide (v = r)

/-- Modelled from the spec: `Extension.characterize` (implementation
absent from `src/`) — each output value is the weighted sum
`Σ factor_i · value_source_i` over all bridge rows whose target is the
requested impact category and whose source stressor (plus optional region
restriction) matches. -/
def characterize (bridge : List (BridgeEntry St T Reg))
    (Fdat : St → Reg × SecC → ℚ) : T → Reg × SecC → ℚ :=
  fun t c =>
    ((bridge.filter fun e => decide (e.tgt = t) && rowApplies e c.1).map
      fun e => e.factor * Fdat e.src c).sum

/-- An identity bridge: one row per source stressor, factor 1, no region
restriction, relabelling stressor `s` to `f s`. -/
def idBridge {m : ℕ} (f : Fin m → T) : List (BridgeEntry (Fin m) T Reg) :=
  (List.finRange m).map fun s => ⟨s, Option.none, f s, 1⟩

/-- Pulling a constant multiplier out of a list sum. -/
theorem list_sum_map_mul_left {α : Type*} (k : ℚ) (f : α → ℚ)
    (l : List α) : (l.map fun e => k * f e).sum = k * (l.map f).sum := by
  induction l with
  | nil => simp
  | cons a tl ih => simp [ih, mul_add]

/-- Filtering a duplicate-free list by a predicate that holds at exactly
one of its members yields just that member. -/
theorem filter_nodup_single {α : Type*} (p : α → Bool) (s : α)
    (l : List α) (hl : l.Nodup) (hs : s ∈ l)
    (hp : ∀ a, p a = true ↔ a = s) : l.filter p = [s] := by
  induction l with
  | nil => cases hs
  | cons a tl ih =>
      rcases List.mem_cons.mp hs with h1 | hmem
      · rw [List.filter_cons_of_pos (by rw [hp a, h1])]
        rw [h1]
        have hnone : ∀ b ∈ tl, ¬ p b = true := by
          intro b hb hpb
          have hba : b = a := ((hp b).mp hpb).trans h1
          exact (List.nodup_cons.mp hl).1 (hba ▸ hb)
        rw [List.filter_eq_nil_iff.mpr hnone]
      · have ha : ¬ p a = true := fun hpa =>
          (List.nodup_cons.mp hl).1 (((hp a).mp hpa) ▸ hmem)
        rw [List.filter_cons_of_neg ha]
        exact ih (List.nodup_cons.mp hl).2 hmem

/-- C8: characterization is linear in the source data — scaling every
source stressor value by `k` scales every characterized output by `k` —
and a bridge of only identity rows (factor 1, one-to-one relabelling)
reproduces the source values under the new labels. -/
theorem characterize_spec {m : ℕ} (bridge : List (BridgeEntry St T Reg))
    (Fdat : St → Reg × SecC → ℚ) (k : ℚ) (f : Fin m → T) :
    (∀ t c, characterize bridge (fun s c' => k * Fdat s c') t c =
      k * characterize bridge Fdat t c) ∧
    (Function.Injective f →
      ∀ (G : Fin m → Reg × SecC → ℚ) (s : Fin m) (c : Reg × SecC),
        characterize (idBridge f) G (f s) c = G s c) := by
  constructor
  · intro t c
    rw [characterize, characterize]
    have hfun : (fun (e : BridgeEntry St T Reg) =>
        e.factor * (k * Fdat e.src c)) =
        fun e => k * (e.factor * Fdat e.src c) := funext fun e => by ring
    rw [hfun, list_sum_map_mul_left]
  · intro hf G s c
    rw [characterize, idBridge, List.filter_map]
    have hpred : ((fun e : BridgeEntry (Fin m) T Reg =>
        decide (e.tgt = f s) && rowApplies e c.1) ∘
        fun v : Fin m =>
          (⟨v, Option.none, f v, 1⟩ : BridgeEntry (Fin m) T Reg)) =
        fun v => decide (f v = f s) := by
      funext v
      simp [rowApplies]
    rw [hpred, filter_nodup_single _ s _ (List.nodup_finRange m)
      (List.mem_finRange s) (fun a => by simp [hf.eq_iff])]
    simp

/-- Witness for C8: the identity bridge on two stressors reproduces the
source value of stressor 1 under its new label. -/
theorem characterize_spec_witness :
    Function.Injective (fun s : Fin 2 => s) ∧
    characterize (idBridge (fun s : Fin 2 => s))
      (fun s (_ : Fin 1 × Fin 1) => (s.val : ℚ)) 1 (0, 0) = 1 := by
  have hf : Function.Injective (fun s : Fin 2 => s) := fun a b h => h
  refine ⟨hf, ?_⟩
  have happ := (@characterize_spec (Fin 2) (Fin 2) (Fin 1) (Fin 1) _ _ 2
    [] (fun _ _ => 0) 0 (fun s : Fin 2 => s)).2 hf
    (fun s _ => (s.val : ℚ)) 1 (0, 0)
  rw [happ]
  norm_num

end Characterize

section ExtensionExtract

/-- Modelled from the spec: a source extension as seen by the
cross-extension extract — its name, the names of its row-index levels, and
its rows, each an association list from level name to label. -/
structure SrcExt where
  name : String
  levels : List String
  rows : List (List (String × String))

/-- The union of the index levels of several extensions (duplicates
removed). -/
def unionLevels (exts : List SrcExt) : List String :=
  (exts.flatMap fun e => e.levels).dedup

/-- Reindex one source row onto a common level list: levels the row lacks
are filled with the null marker `none` (pandas `NaN`). -/
def fillRow (lv : List String) (r : List (String × String)) :
    List (String × Option String) :=
  lv.map fun l => (l, r.lookup l)

/-- Result of `extension_extract`: either one extracted extension per
source extension, or a single merged extension carrying the caller-chosen
name. -/
inductive ExtractResult where
  | perExtension (exts : List SrcExt)
  | merged (name : String) (levels : List String)
      (rows : List (List (String × Option String)))

/-- Modelled from the spec: `IOSystem.extension_extract` (implementation
absent from `src/`; notebook doc: passing any string other than
"extension" as `return_type` merges the matched rows of all extensions
into one new extension named by that string, on the union of the source
index levels, absent levels filled with `NaN`). -/
def extension_extract (exts : List SrcExt)
    (p : List (String × String) → Bool) (returnType : String) :
    ExtractResult :=
  if returnType = "extension" then
    ExtractResult.perExtension
      (exts.map fun e => { e with rows := e.rows.filter p })
  else
    ExtractResult.merged returnType (unionLevels exts)
      (exts.flatMap fun e => (e.rows.filter p).map (fillRow (unionLevels exts)))

/-- C9: with `return_type` any string other than "extension",
`extension_extract` returns one merged extension whose name is exactly
that string and whose index levels are the union of the source
extensions' levels; its rows are exactly the matched source rows
reindexed on that union, with a level the source row lacked carried as
the null marker (`none`, i.e. `NaN`). -/
theorem extension_extract_spec (exts : List SrcExt)
    (p : List (String × String) → Bool) (rt : String)
    (hrt : rt ≠ "extension") :
    ∃ rows, extension_extract exts p rt =
      ExtractResult.merged rt (unionLevels exts) rows ∧
    ∀ row, row ∈ rows ↔ ∃ e ∈ exts, ∃ r ∈ e.rows, p r = true ∧
      row = (unionLevels exts).map fun l => (l, r.lookup l) := by
  refine ⟨_, by rw [extension_extract, if_neg hrt], ?_⟩
  intro row
  simp only [List.mem_flatMap, List.mem_map, List.mem_filter, fillRow]
  constructor
  · rintro ⟨e, he, r, ⟨hr, hp⟩, hrow⟩
    exact ⟨e, he, r, hr, hp, hrow.symm⟩
  · rintro ⟨e, he, r, hr, hp, hrow⟩
    exact ⟨e, he, r, ⟨hr, hp⟩, hrow.symm⟩

/-- Witness for C9, after the notebook example: two extensions, one with
a single index level, one with two; the merged result is named by the
passed string, carries the union of the levels, and fills the missing
"compartment" entry of the Value Added row with the null marker. -/
theorem extension_extract_spec_witness :
    ("new_name" : String) ≠ "extension" ∧
    ∃ rows,
      extension_extract
        [⟨"Factor Inputs", ["indicator"], [[("indicator", "Value Added")]]⟩,
         ⟨"Emissions", ["indicator", "compartment"],
           [[("indicator", "emission_type2"), ("compartment", "water")]]⟩]
        (fun _ => true) "new_name" =
        ExtractResult.merged "new_name"
          (unionLevels
            [⟨"Factor Inputs", ["indicator"], [[("indicator", "Value Added")]]⟩,
             ⟨"Emissions", ["indicator", "compartment"],
               [[("indicator", "emission_type2"), ("compartment", "water")]]⟩])
          rows ∧
      ∀ row, row ∈ rows ↔ ∃ e ∈
        [⟨"Factor Inputs", ["indicator"], [[("indicator", "Value Added")]]⟩,
         ⟨"Emissions", ["indicator", "compartment"],
           [[("indicator", "emission_type2"), ("compartment", "water")]]⟩],
        ∃ r ∈ SrcExt.rows e, (fun _ => true) r = true ∧
          row = (unionLevels
            [⟨"Factor Inputs", ["indicator"], [[("indicator", "Value Added")]]⟩,
             ⟨"Emissions", ["indicator", "compartment"],
               [[("indicator", "emission_type2"), ("compartment", "water")]]⟩]).map
            fun l => (l, r.lookup l) := by
  refine ⟨by decide, extension_extract_spec _ _ _ (by decide)⟩

end ExtensionExtract

section ExtractDataframes

/-- Modelled from the spec: an extension as seen by the
`dataframes`-filtered extract — its name and the names of the dataframe
tables it actually holds. -/
structure ExtAvail where
  name : String
  available : List String

/-- Modelled from the spec: `IOSystem.extension_extract` with an explicit
`dataframes` argument (implementation absent from `src/`; notebook doc:
extensions lacking a requested table produce the non-aborting UserWarning
"Not all requested dataframes are available in ..." while the call still
returns, per extension, exactly the requested tables that exist).  Returns
the list of emitted warnings together with the per-extension kept table
names. -/
def extract_dataframes (exts : List ExtAvail) (dfs : List String) :
    List String × List (String × List String) :=
  ((exts.filter fun e => !(dfs.all fun d => decide (d ∈ e.available))).map
      fun e => "Not all requested dataframes are available in " ++ e.name,
    exts.map fun e => (e.name, dfs.filter fun d => decide (d ∈ e.available)))

/-- C10: the `dataframes`-filtered extract is total — it always returns a
result holding, for every extension, exactly the requested tables that
extension has (never a table that was not requested) — and any extension
missing some requested table contributes the UserWarning naming it, while
extensions holding all requested tables contribute no warning; warnings
never prevent the result. -/
theorem extract_dataframes_spec (exts : List ExtAvail) (dfs : List String) :
    (∀ e ∈ exts, ∃ kept, (e.name, kept) ∈ (extract_dataframes exts dfs).2 ∧
      ∀ d, d ∈ kept ↔ d ∈ dfs ∧ d ∈ e.available) ∧
    (∀ e ∈ exts, (∃ d ∈ dfs, d ∉ e.available) →
      ("Not all requested dataframes are available in " ++ e.name) ∈
        (extract_dataframes exts dfs).1) ∧
    (extract_dataframes exts dfs).2.length = exts.length := by
  refine ⟨?_, ?_, by simp [extract_dataframes]⟩
  · intro e he
    refine ⟨dfs.filter fun d => decide (d ∈ e.available), ?_, ?_⟩
    · simp only [extract_dataframes, List.mem_map]
      exact ⟨e, he, rfl⟩
    · intro d
      simp [List.mem_filter]
  · intro e he hmiss
    simp only [extract_dataframes, List.mem_map]
    refine ⟨e, ?_, rfl⟩
    simp only [List.mem_filter]
    refine ⟨he, ?_⟩
    obtain ⟨d, hd, hdo⟩ := hmiss
    simp only [Bool.not_eq_eq_eq_not, Bool.not_true, List.all_eq_false]
    exact ⟨d, hd, by simpa using hdo⟩

/-- Witness for C10, after the notebook example: requesting only `F_Y`
when the Factor Inputs extension holds only `F` yields the UserWarning
for Factor Inputs, and the Emissions extension keeps exactly `F_Y`. -/
theorem extract_dataframes_spec_witness :
    (⟨"Factor Inputs", ["F"]⟩ : ExtAvail) ∈
      [(⟨"Factor Inputs", ["F"]⟩ : ExtAvail), ⟨"Emissions", ["F", "F_Y"]⟩] ∧
    ("Not all requested dataframes are available in Factor Inputs") ∈
      (extract_dataframes
        [⟨"Factor Inputs", ["F"]⟩, ⟨"Emissions", ["F", "F_Y"]⟩]
        ["F_Y"]).1 ∧
    ∃ kept, ("Emissions", kept) ∈
      (extract_dataframes
        [⟨"Factor Inputs", ["F"]⟩, ⟨"Emissions", ["F", "F_Y"]⟩]
        ["F_Y"]).2 ∧
      ∀ d, d ∈ kept ↔ d ∈ ["F_Y"] ∧ d ∈ ["F", "F_Y"] := by
  have h1 : (⟨"Factor Inputs", ["F"]⟩ : ExtAvail) ∈
      [(⟨"Factor Inputs", ["F"]⟩ : ExtAvail), ⟨"Emissions", ["F", "F_Y"]⟩] :=
    List.mem_cons_self _ _
  have h2 : (⟨"Emissions", ["F", "F_Y"]⟩ : ExtAvail) ∈
      [(⟨"Factor Inputs", ["F"]⟩ : ExtAvail), ⟨"Emissions", ["F", "F_Y"]⟩] := by
    simp
  refine ⟨h1, ?_, ?_⟩
  · exact (extract_dataframes_spec _ _).2.1 _ h1 ⟨"F_Y", by decide, by decide⟩
  · exact (extract_dataframes_spec _ _).1 _ h2

end ExtractDataframes
